import Mathlib

/-!
Shallow embedding of the wall-puzzle solver (`src/main.rs`).

The program has four parts, each embedded below from the source:
* the `Color` enumeration with its `Display` and `From<&str>` instances;
* the nom-based parser (`Puzzle::parse_puzzle`, `parse_node`, `parse_edge`
  built from `alpha1`, `space1`, `tag`, `separated_list0`, `separated_list1`)
  together with `FromStr for Puzzle`;
* the solver `Puzzle::solve`, a uniform-cost search over `(node, last color)`
  states; every edge has cost 1, so the search is breadth-first.  The Rust
  code calls `HashMap::get(..).unwrap()` on the current node, which panics
  when the node has no entry; the embedding returns `Except.error ()` there;
* the reporter `print_solution` and the `main` match that prints
  "No solution found".

Machine integers do not occur; all data is strings, lists and enums.
-/

/-- The color of the edge between two nodes (`enum Color`). -/
inductive Color where
  | red
  | blue
  | none
deriving DecidableEq, Repr, Fintype

/-- `impl Display for Color`: lowercase color names. -/
def Color.display : Color → String
  | Color.red => "red"
  | Color.blue => "blue"
  | Color.none => "none"

/-- `impl From<&str> for Color`: "red" and "blue" are recognized, every
other string falls to the catch-all arm and becomes `Color.none`. -/
def Color.fromStr (s : String) : Color :=
  if s = "red" then Color.red
  else if s = "blue" then Color.blue
  else Color.none

/-- An edge in the graph (`struct Edge`), also used by the solver as a
search state: the node we are at and the color of the edge used to get
there. -/
structure Edge where
  color : Color
  node : String
deriving DecidableEq, Repr

/-- The puzzle (`struct Puzzle`): a map from node to its outgoing edges.
The Rust `HashMap` is embedded as the association list produced by the
parser; `Puzzle.get` applies the `HashMap::from_iter` overwrite rule
(a later binding for the same key wins). -/
structure Puzzle where
  nodes : List (String × List Edge)
deriving DecidableEq, Repr

/-- `HashMap` lookup over the association list: the value of the last
binding whose key matches, since `.collect()` lets later pairs of the
iterator overwrite earlier ones. -/
def assocLast : List (String × List Edge) → String → Option (List Edge)
  | [], _ => Option.none
  | b :: rest, k =>
    match assocLast rest k with
    | Option.some v => Option.some v
    | Option.none => if b.1 = k then Option.some b.2 else Option.none

/-- `self.nodes.get(&node)`. -/
def Puzzle.get (p : Puzzle) (k : String) : Option (List Edge) :=
  assocLast p.nodes k

/-! ### The nom combinators used by the parser

Input is the string's character list; `Option.none` is a nom `Err::Error`
(all parsers here are `complete`, and none produces `Err::Failure`).
A successful parse returns the produced value and the remaining input.
-/

/-- nom's `take_while1` on characters: the longest nonempty prefix whose
characters satisfy `p`; error when that prefix is empty. -/
def takeWhile1 (p : Char → Bool) (input : List Char) : Option (List Char × List Char) :=
  match input.takeWhile p with
  | [] => Option.none
  | c :: rest => Option.some (c :: rest, input.dropWhile p)

/-- nom `alpha1`: one or more ASCII alphabetic characters. -/
def alpha1 (input : List Char) : Option (List Char × List Char) :=
  takeWhile1 Char.isAlpha input

/-- nom's space character class: a space or a tab. -/
def isSpaceChar (c : Char) : Bool := c = ' ' || c = '\t'

/-- nom `space1`: one or more spaces and tabs. -/
def space1 (input : List Char) : Option (List Char × List Char) :=
  takeWhile1 isSpaceChar input

/-- nom `tag` for the one-character tags the program uses (`":"`, `"\n"`):
match the character and return the rest. -/
def tagChar (c : Char) (input : List Char) : Option (List Char) :=
  match input with
  | [] => Option.none
  | x :: rest => if x = c then Option.some rest else Option.none

theorem takeWhile1_consumes {p : Char → Bool} {i : List Char} {m r : List Char}
    (h : takeWhile1 p i = Option.some (m, r)) : r.length < i.length := by
  unfold takeWhile1 at h
  split at h
  · exact absurd h (by simp)
  · rename_i c rest htw
    rw [Option.some.injEq, Prod.mk.injEq] at h
    obtain ⟨hm, hr⟩ := h
    have hsplit := congrArg List.length
      (show List.takeWhile p i ++ List.dropWhile p i = i by simp)
    rw [List.length_append, htw] at hsplit
    rw [← hr]
    simp only [List.length_cons] at hsplit
    omega

theorem alpha1_consumes {i : List Char} {m r : List Char}
    (h : alpha1 i = Option.some (m, r)) : r.length < i.length :=
  takeWhile1_consumes h

theorem space1_consumes {i : List Char} {m r : List Char}
    (h : space1 i = Option.some (m, r)) : r.length < i.length :=
  takeWhile1_consumes h

theorem tagChar_consumes {c : Char} {i r : List Char}
    (h : tagChar c i = Option.some r) : r.length < i.length := by
  unfold tagChar at h
  split at h
  · exact absurd h (by simp)
  · rename_i x rest
    by_cases hx : x = c
    · rw [if_pos hx, Option.some.injEq] at h
      subst h; simp
    · rw [if_neg hx] at h; exact absurd h (by simp)

/-- `Puzzle::parse_edge`: `alpha1`, then `tag(":")`, then `alpha1`;
builds an `Edge` out of the color name and the destination node. -/
def Puzzle.parse_edge (input : List Char) : Option (Edge × List Char) :=
  match alpha1 input with
  | Option.none => Option.none
  | Option.some (color, i1) =>
    match tagChar ':' i1 with
    | Option.none => Option.none
    | Option.some i2 =>
      match alpha1 i2 with
      | Option.none => Option.none
      | Option.some (node, i3) =>
        Option.some (Edge.mk (Color.fromStr (String.mk color)) (String.mk node), i3)

theorem parse_edge_consumes {i : List Char} {e : Edge} {r : List Char}
    (h : Puzzle.parse_edge i = Option.some (e, r)) : r.length < i.length := by
  unfold Puzzle.parse_edge at h
  split at h
  · exact absurd h (by simp)
  · rename_i color i1 h1
    split at h
    · exact absurd h (by simp)
    · rename_i i2 h2
      split at h
      · exact absurd h (by simp)
      · rename_i node i3 h3
        rw [Option.some.injEq, Prod.mk.injEq] at h
        obtain ⟨he, hr⟩ := h
        subst hr
        have := alpha1_consumes h1
        have := tagChar_consumes h2
        have := alpha1_consumes h3
        omega

/-- The loop of nom `separated_list1(space1, parse_edge)` after the first
element: repeatedly parse a separator and an element, stopping (and
giving back the input from before the separator) as soon as either
fails.  nom's infinite-loop guard errors out if the separator consumed
nothing; `space1` always consumes, so the guard is dead code here. -/
def edgesRest (input : List Char) : Option (List Edge × List Char) :=
  match h1 : space1 input with
  | Option.none => Option.some ([], input)
  | Option.some (_, i1) =>
    if i1.length = input.length then Option.none
    else
      match h2 : Puzzle.parse_edge i1 with
      | Option.none => Option.some ([], input)
      | Option.some (e, i2) =>
        match edgesRest i2 with
        | Option.none => Option.none
        | Option.some (es, rest) => Option.some (e :: es, rest)
termination_by input.length
decreasing_by
  have := space1_consumes h1
  have := parse_edge_consumes h2
  omega


theorem edgesRest_eq_nospace {input : List Char} (h1 : space1 input = Option.none) :
    edgesRest input = Option.some ([], input) := by
  rw [edgesRest.eq_def]
  split
  · rfl
  · rename_i m i1 h
    exact absurd (h.symm.trans h1) (by simp)

theorem edgesRest_eq_noedge {input m i1 : List Char}
    (h1 : space1 input = Option.some (m, i1))
    (h2 : Puzzle.parse_edge i1 = Option.none) :
    edgesRest input = Option.some ([], input) := by
  rw [edgesRest.eq_def]
  split
  · rename_i h
    exact absurd (h.symm.trans h1) (by simp)
  · rename_i m' i1' h
    have h1' := h.symm.trans h1
    simp only [Option.some.injEq, Prod.mk.injEq] at h1'
    obtain ⟨hm2, hi2⟩ := h1'
    subst hi2
    rw [if_neg (by have := space1_consumes h; omega)]
    split
    · rfl
    · rename_i e i2 h2'
      exact absurd (h2'.symm.trans h2) (by simp)

theorem edgesRest_eq_cons {input m i1 : List Char} {e : Edge} {i2 : List Char}
    (h1 : space1 input = Option.some (m, i1))
    (h2 : Puzzle.parse_edge i1 = Option.some (e, i2)) :
    edgesRest input =
      match edgesRest i2 with
      | Option.none => Option.none
      | Option.some (es, rest) => Option.some (e :: es, rest) := by
  rw [edgesRest.eq_def]
  split
  · rename_i h
    exact absurd (h.symm.trans h1) (by simp)
  · rename_i m' i1' h
    have h1' := h.symm.trans h1
    simp only [Option.some.injEq, Prod.mk.injEq] at h1'
    obtain ⟨hm2, hi2⟩ := h1'
    subst hi2
    rw [if_neg (by have := space1_consumes h; omega)]
    split
    · rename_i h2'
      exact absurd (h2'.symm.trans h2) (by simp)
    · rename_i e' i2' h2'
      have h2x := h2'.symm.trans h2
      simp only [Option.some.injEq, Prod.mk.injEq] at h2x
      obtain ⟨he2, hi2⟩ := h2x
      subst he2; subst hi2
      rfl

theorem edgesRest_eq_cons_some {input m i1 : List Char} {e : Edge} {i2 : List Char}
    {es : List Edge} {rest : List Char}
    (h1 : space1 input = Option.some (m, i1))
    (h2 : Puzzle.parse_edge i1 = Option.some (e, i2))
    (h3 : edgesRest i2 = Option.some (es, rest)) :
    edgesRest input = Option.some (e :: es, rest) := by
  rw [edgesRest_eq_cons h1 h2, h3]





theorem edgesRest_consumes {i : List Char} :
    ∀ {es : List Edge} {r : List Char}, edgesRest i = Option.some (es, r) → r.length ≤ i.length := by
  induction i using edgesRest.induct with
  | case1 input h1 =>
    intro es r h
    rw [edgesRest_eq_nospace h1] at h
    simp only [Option.some.injEq, Prod.mk.injEq] at h
    obtain ⟨hes, hr⟩ := h
    subst hr
    exact Nat.le_refl _
  | case2 input m i1 h1 hlen =>
    intro es r h
    have := space1_consumes h1
    omega
  | case3 input m i1 h1 hlen h2 =>
    intro es r h
    rw [edgesRest_eq_noedge h1 h2] at h
    simp only [Option.some.injEq, Prod.mk.injEq] at h
    obtain ⟨hes, hr⟩ := h
    subst hr
    exact Nat.le_refl _
  | case4 input m i1 h1 hlen e i2 h2 h3 ih =>
    intro es r h
    rw [edgesRest_eq_cons h1 h2, h3] at h
    exact absurd h (by simp)
  | case5 input m i1 h1 hlen e i2 h2 es2 rest2 h3 ih =>
    intro es r h
    rw [edgesRest_eq_cons h1 h2, h3] at h
    simp only [Option.some.injEq, Prod.mk.injEq] at h
    obtain ⟨hes, hr⟩ := h
    subst hr
    have := ih h3
    have := space1_consumes h1
    have := parse_edge_consumes h2
    omega

/-- `Puzzle::parse_node`: a node name (`alpha1`), one or more spaces, then
`separated_list1(space1, parse_edge)` whose first element is mandatory and
whose tail is `edgesRest`. -/
def Puzzle.parse_node (input : List Char) : Option ((String × List Edge) × List Char) :=
  match alpha1 input with
  | Option.none => Option.none
  | Option.some (node, i1) =>
    match space1 i1 with
    | Option.none => Option.none
    | Option.some (_, i2) =>
      match Puzzle.parse_edge i2 with
      | Option.none => Option.none
      | Option.some (e, i3) =>
        match edgesRest i3 with
        | Option.none => Option.none
        | Option.some (es, rest) => Option.some ((String.mk node, e :: es), rest)

theorem parse_node_consumes {i : List Char} {nd : String × List Edge} {r : List Char}
    (h : Puzzle.parse_node i = Option.some (nd, r)) : r.length < i.length := by
  unfold Puzzle.parse_node at h
  split at h
  · exact absurd h (by simp)
  · rename_i node i1 h1
    split at h
    · exact absurd h (by simp)
    · rename_i m i2 h2
      split at h
      · exact absurd h (by simp)
      · rename_i e i3 h3
        split at h
        · exact absurd h (by simp)
        · rename_i es rest h4
          simp only [Option.some.injEq, Prod.mk.injEq] at h
          obtain ⟨hnd, hr⟩ := h
          subst hr
          have := alpha1_consumes h1
          have := space1_consumes h2
          have := parse_edge_consumes h3
          have := edgesRest_consumes h4
          omega

/-- The loop of nom `separated_list0(tag("\n"), parse_node)` after the
first element: parse a newline and a node, stopping before the newline as
soon as either fails.  nom's infinite-loop guard errors out if the
separator consumed nothing; `tag("\n")` always consumes one character, so
the guard is dead code here. -/
def nodesRest (input : List Char) : Option (List (String × List Edge) × List Char) :=
  match h1 : tagChar (Char.ofNat 10) input with
  | Option.none => Option.some ([], input)
  | Option.some i1 =>
    if i1.length = input.length then Option.none
    else
      match h2 : Puzzle.parse_node i1 with
      | Option.none => Option.some ([], input)
      | Option.some (n, i2) =>
        match nodesRest i2 with
        | Option.none => Option.none
        | Option.some (ns, rest) => Option.some (n :: ns, rest)
termination_by input.length
decreasing_by
  have := tagChar_consumes h1
  have := parse_node_consumes h2
  omega

theorem nodesRest_eq_nosep {input : List Char}
    (h1 : tagChar (Char.ofNat 10) input = Option.none) :
    nodesRest input = Option.some ([], input) := by
  rw [nodesRest.eq_def]
  split
  · rfl
  · rename_i i1 h
    exact absurd (h.symm.trans h1) (by simp)

theorem nodesRest_eq_nonode {input i1 : List Char}
    (h1 : tagChar (Char.ofNat 10) input = Option.some i1)
    (h2 : Puzzle.parse_node i1 = Option.none) :
    nodesRest input = Option.some ([], input) := by
  rw [nodesRest.eq_def]
  split
  · rename_i h
    exact absurd (h.symm.trans h1) (by simp)
  · rename_i i1' h
    have h1' := h.symm.trans h1
    simp only [Option.some.injEq] at h1'
    subst h1'
    rw [if_neg (by have := tagChar_consumes h; omega)]
    split
    · rfl
    · rename_i n i2 h2'
      exact absurd (h2'.symm.trans h2) (by simp)

theorem nodesRest_eq_cons {input i1 : List Char} {n : String × List Edge} {i2 : List Char}
    (h1 : tagChar (Char.ofNat 10) input = Option.some i1)
    (h2 : Puzzle.parse_node i1 = Option.some (n, i2)) :
    nodesRest input =
      match nodesRest i2 with
      | Option.none => Option.none
      | Option.some (ns, rest) => Option.some (n :: ns, rest) := by
  rw [nodesRest.eq_def]
  split
  · rename_i h
    exact absurd (h.symm.trans h1) (by simp)
  · rename_i i1' h
    have h1' := h.symm.trans h1
    simp only [Option.some.injEq] at h1'
    subst h1'
    rw [if_neg (by have := tagChar_consumes h; omega)]
    split
    · rename_i h2'
      exact absurd (h2'.symm.trans h2) (by simp)
    · rename_i n' i2' h2'
      have h2x := h2'.symm.trans h2
      simp only [Option.some.injEq, Prod.mk.injEq] at h2x
      obtain ⟨hn2, hi2⟩ := h2x
      subst hn2; subst hi2
      rfl

theorem nodesRest_eq_cons_some {input i1 : List Char} {n : String × List Edge} {i2 : List Char}
    {ns : List (String × List Edge)} {rest : List Char}
    (h1 : tagChar (Char.ofNat 10) input = Option.some i1)
    (h2 : Puzzle.parse_node i1 = Option.some (n, i2))
    (h3 : nodesRest i2 = Option.some (ns, rest)) :
    nodesRest input = Option.some (n :: ns, rest) := by
  rw [nodesRest_eq_cons h1 h2, h3]

theorem edgesRest_total (i : List Char) : edgesRest i ≠ Option.none := by
  induction i using edgesRest.induct with
  | case1 input h1 => rw [edgesRest_eq_nospace h1]; simp
  | case2 input m i1 h1 hlen =>
    have := space1_consumes h1
    omega
  | case3 input m i1 h1 hlen h2 => rw [edgesRest_eq_noedge h1 h2]; simp
  | case4 input m i1 h1 hlen e i2 h2 h3 ih => exact absurd h3 ih
  | case5 input m i1 h1 hlen e i2 h2 es2 rest2 h3 ih =>
    rw [edgesRest_eq_cons h1 h2, h3]
    simp

theorem nodesRest_total (i : List Char) : nodesRest i ≠ Option.none := by
  induction i using nodesRest.induct with
  | case1 input h1 => rw [nodesRest_eq_nosep h1]; simp
  | case2 input i1 h1 hlen =>
    have := tagChar_consumes h1
    omega
  | case3 input i1 h1 hlen h2 => rw [nodesRest_eq_nonode h1 h2]; simp
  | case4 input i1 h1 hlen n i2 h2 h3 ih => exact absurd h3 ih
  | case5 input i1 h1 hlen n i2 h2 ns2 rest2 h3 ih =>
    rw [nodesRest_eq_cons_some h1 h2 h3]
    simp

/-- `Puzzle::parse_puzzle`: nom `separated_list0(tag("\\n"), parse_node)`,
collecting the parsed `(name, edges)` pairs into the map.  A failing first
node yields the empty list (and an untouched input); afterwards the loop
`nodesRest` takes over.  Leftover input is returned alongside the puzzle,
exactly as in an `IResult`. -/
def Puzzle.parse_puzzle (input : List Char) : Option (Puzzle × List Char) :=
  match Puzzle.parse_node input with
  | Option.none => Option.some (Puzzle.mk [], input)
  | Option.some (n, i1) =>
    match nodesRest i1 with
    | Option.none => Option.none
    | Option.some (ns, rest) => Option.some (Puzzle.mk (n :: ns), rest)

/-- `impl FromStr for Puzzle`: run `parse_puzzle` on the whole string and
`.finish()` the result, keeping only the puzzle and dropping the leftover
input on success.  The error value of the embedding is `()`; the nom error
(remaining input and error kind) is not inspected by the program. -/
def Puzzle.from_str (s : String) : Except Unit Puzzle :=
  match Puzzle.parse_puzzle s.data with
  | Option.some (puz, _) => Except.ok puz
  | Option.none => Except.error ()

/-! ### The solver -/

/-- The edge-legality test inside the `filter_map` of `Puzzle::solve`'s
successor closure: `*color == Color::None || edge.color != *color`.
`last` is the color of the edge used to reach the current state and
`cand` the color of the candidate outgoing edge. -/
def canFollow (last cand : Color) : Bool :=
  cand == Color.none || last != cand

/-- The `successors` closure of `Puzzle::solve`: look the current node up
in the map — `Option.none` models the `unwrap()` panic when the node has
no entry — and keep every outgoing edge whose color may follow the color
we arrived with, as the next search state.  The cost of each transition
is 1 and is accounted for by path length, as in the Rust code where every
successor is paired with cost `1`. -/
def successors (p : Puzzle) (e : Edge) : Option (List Edge) :=
  match p.get e.node with
  | Option.none => Option.none
  | Option.some edges =>
    Option.some (edges.filterMap (fun ed =>
      if canFollow e.color ed.color then Option.some (Edge.mk ed.color ed.node) else Option.none))

/-- Membership in the solver's record of already-expanded states (the
`parents` map of `pathfinding`'s dijkstra keyed by search state). -/
def Vmem (s : Edge) (V : List (Edge × Nat)) : Bool :=
  decide (s ∈ V.map Prod.fst)

/-- Every search state the successor closure can ever produce: the edges
of all bindings of the map.  Used only to bound the search for the
termination measure. -/
def statesOf (p : Puzzle) : List Edge :=
  p.nodes.flatMap Prod.snd

/-- Termination measure of the search: how many potential states (the
bound `statesOf` together with whatever the queue already holds) are not
yet expanded, paired lexicographically with the queue length by `bfsAux`. -/
def bfsMeasure (p : Puzzle) (Q : List (Edge × List Edge)) (V : List (Edge × Nat)) : Nat :=
  (((statesOf p).toFinset ∪ (Q.map Prod.fst).toFinset) \ (V.map Prod.fst).toFinset).card

theorem assocLast_mem {l : List (String × List Edge)} {k : String} {v : List Edge}
    (h : assocLast l k = Option.some v) : ∃ b ∈ l, b.2 = v := by
  induction l with
  | nil => exact absurd h (by simp [assocLast])
  | cons b rest ih =>
    unfold assocLast at h
    split at h
    · rename_i v' hv
      have hveq := Option.some.inj h
      subst hveq
      obtain ⟨b', hb', hv'⟩ := ih hv
      exact ⟨b', List.mem_cons_of_mem _ hb', hv'⟩
    · rename_i hv
      by_cases hk : b.1 = k
      · rw [if_pos hk, Option.some.injEq] at h
        exact ⟨b, List.mem_cons_self _ _, h⟩
      · rw [if_neg hk] at h
        exact absurd h (by simp)

theorem successors_subset_statesOf {p : Puzzle} {e : Edge} {l : List Edge}
    (h : successors p e = Option.some l) : ∀ t ∈ l, t ∈ statesOf p := by
  intro t ht
  unfold successors at h
  split at h
  · exact absurd h (by simp)
  · rename_i edges hg
    have hl := Option.some.inj h
    rw [← hl] at ht
    rw [List.mem_filterMap] at ht
    obtain ⟨ed, hed, hif⟩ := ht
    have ht' : t = ed := by
      by_cases hc : canFollow e.color ed.color
      · rw [if_pos hc, Option.some.injEq] at hif
        rw [← hif]
      · rw [if_neg hc] at hif
        exact absurd hif (by simp)
    subst ht'
    obtain ⟨b, hb, hbv⟩ := assocLast_mem hg
    unfold statesOf
    rw [List.mem_flatMap]
    exact ⟨b, hb, hbv ▸ hed⟩

theorem bfsMeasure_skip {p : Puzzle} {x : Edge × List Edge}
    {Q : List (Edge × List Edge)} {V : List (Edge × Nat)}
    (h : Vmem x.1 V = true) : bfsMeasure p (x :: Q) V = bfsMeasure p Q V := by
  unfold bfsMeasure
  apply congrArg Finset.card
  ext s
  unfold Vmem at h
  rw [decide_eq_true_eq] at h
  simp only [Finset.mem_sdiff, Finset.mem_union, List.mem_toFinset, List.map_cons,
    List.mem_cons]
  constructor
  · rintro ⟨hin, hout⟩
    refine ⟨?_, hout⟩
    rcases hin with hin | hin | hin
    · exact Or.inl hin
    · exact absurd (hin ▸ h) hout
    · exact Or.inr hin
  · rintro ⟨hin, hout⟩
    exact ⟨by tauto, hout⟩

theorem bfsMeasure_expand {p : Puzzle} {x : Edge × List Edge}
    {Q : List (Edge × List Edge)} {V : List (Edge × Nat)} {succs : List Edge} {d : Nat}
    (hv : ¬ Vmem x.1 V = true)
    (hs : successors p x.1 = Option.some succs) :
    bfsMeasure p (Q ++ succs.map (fun s => (s, x.1 :: x.2))) ((x.1, d) :: V)
      < bfsMeasure p (x :: Q) V := by
  unfold Vmem at hv
  rw [decide_eq_true_eq] at hv
  apply Finset.card_lt_card
  have hsub : (((statesOf p).toFinset
        ∪ ((Q ++ succs.map (fun s => (s, x.1 :: x.2))).map Prod.fst).toFinset)
        \ (((x.1, d) :: V).map Prod.fst).toFinset)
      ⊆ (((statesOf p).toFinset ∪ ((x :: Q).map Prod.fst).toFinset)
        \ (V.map Prod.fst).toFinset) := by
    intro s hsmem
    simp only [Finset.mem_sdiff, Finset.mem_union, List.mem_toFinset, List.map_cons,
      List.mem_cons, List.map_append, List.mem_append, List.map_map] at hsmem ⊢
    obtain ⟨hin, hout⟩ := hsmem
    push_neg at hout
    obtain ⟨hne, hout'⟩ := hout
    refine ⟨?_, hout'⟩
    rcases hin with hin | hin | hin
    · exact Or.inl hin
    · exact Or.inr (Or.inr hin)
    · rw [List.mem_map] at hin
      obtain ⟨t, hint, hteq⟩ := hin
      have hst : s = t := by simpa using hteq.symm
      subst hst
      exact Or.inl (successors_subset_statesOf hs _ hint)
  rw [Finset.ssubset_iff_of_subset hsub]
  refine ⟨x.1, ?_, ?_⟩
  · simp only [Finset.mem_sdiff, Finset.mem_union, List.mem_toFinset, List.map_cons,
      List.mem_cons]
    exact ⟨Or.inr (Or.inl trivial), hv⟩
  · simp only [Finset.mem_sdiff, Finset.mem_union, List.mem_toFinset, List.map_cons,
      List.mem_cons, not_and, not_not]
    intro _
    exact Or.inl trivial

/-- The search loop of `pathfinding`'s `dijkstra` as run by
`Puzzle::solve`.  All edge costs are 1, so the priority queue ordered by
cost is embedded as a first-in-first-out queue: entries carry the state
and the reversed list of states by which it was discovered.  Popping a
state checks the goal first (exactly as `dijkstra` checks `stop_at` on
the popped node before anything else), then skips states already
expanded, and otherwise asks the successor closure — whose
`HashMap::get(..).unwrap()` panic is the `Except.error ()` outcome — and
appends the new states at the back with the extended path, recording the
expanded state together with the length of its path. -/
def bfsAux (p : Puzzle) (goal : Edge → Bool) (Q : List (Edge × List Edge))
    (V : List (Edge × Nat)) : Except Unit (Option (List Edge)) :=
  match Q with
  | [] => Except.ok Option.none
  | x :: rest =>
    if goal x.1 then Except.ok (Option.some ((x.1 :: x.2).reverse))
    else if hv : Vmem x.1 V = true then bfsAux p goal rest V
    else
      match hs : successors p x.1 with
      | Option.none => Except.error ()
      | Option.some succs =>
        bfsAux p goal (rest ++ succs.map (fun s => (s, x.1 :: x.2)))
          ((x.1, x.2.length + 1) :: V)
termination_by (bfsMeasure p Q V, Q.length)
decreasing_by
  · rw [bfsMeasure_skip hv]
    apply Prod.Lex.right
    simp
  · apply Prod.Lex.left
    exact bfsMeasure_expand hv hs

/-- `Puzzle::solve`: seed the search with the synthetic start state
`(Color.none, start)` and run the cost-ordered search; the returned value
keeps only the path, dropping the cost, as `solve` maps the dijkstra
result through `|(solution, _)| solution`.  `Except.error ()` is the
`unwrap()` panic inside the successor closure. -/
def Puzzle.solve (p : Puzzle) (start endNode : String) : Except Unit (Option (List Edge)) :=
  bfsAux p (fun state => state.node == endNode) [(Edge.mk Color.none start, [])] []

/-- `print_solution`: walk the path keeping the previous and current
state, and emit one line per consecutive pair.  The embedding returns the
printed lines. -/
def print_solution_go (cur : Option Edge) : List Edge → List String
  | [] => []
  | state :: rest =>
    (match cur with
     | Option.some prev =>
       [prev.node ++ " ==(" ++ Color.display state.color ++ ")=> " ++ state.node]
     | Option.none => []) ++ print_solution_go (Option.some state) rest

/-- `print_solution(solution)`: the loop starts with no previous and no
current state. -/
def print_solution (solution : List Edge) : List String :=
  print_solution_go Option.none solution

/-- The `match` in `main` that consumes the solver's result: the lines of
`print_solution` on success, the single "No solution found" line
otherwise. -/
def report (result : Option (List Edge)) : List String :=
  match result with
  | Option.some solution => print_solution solution
  | Option.none => ["No solution found"]

theorem bfsAux_nil (p : Puzzle) (goal : Edge → Bool) (V : List (Edge × Nat)) :
    bfsAux p goal [] V = Except.ok Option.none := by
  rw [bfsAux.eq_def]

theorem bfsAux_goal (p : Puzzle) (goal : Edge → Bool) {x : Edge × List Edge}
    (rest : List (Edge × List Edge)) (V : List (Edge × Nat)) (h : goal x.1 = true) :
    bfsAux p goal (x :: rest) V = Except.ok (Option.some ((x.1 :: x.2).reverse)) := by
  rw [bfsAux.eq_def]
  simp [h]

theorem bfsAux_skip (p : Puzzle) (goal : Edge → Bool) {x : Edge × List Edge}
    (rest : List (Edge × List Edge)) {V : List (Edge × Nat)}
    (h : goal x.1 = false) (h2 : Vmem x.1 V = true) :
    bfsAux p goal (x :: rest) V = bfsAux p goal rest V := by
  rw [bfsAux.eq_def]
  simp [h, h2]

theorem bfsAux_panic (p : Puzzle) (goal : Edge → Bool) {x : Edge × List Edge}
    (rest : List (Edge × List Edge)) {V : List (Edge × Nat)}
    (h : goal x.1 = false) (h2 : Vmem x.1 V = false)
    (h3 : successors p x.1 = Option.none) :
    bfsAux p goal (x :: rest) V = Except.error () := by
  rw [bfsAux.eq_def]
  simp only [h, Bool.false_eq_true, if_false, h2, dite_false]
  split
  · rfl
  · rename_i succs hs
    exact absurd (hs.symm.trans h3) (by simp)

theorem bfsAux_expand (p : Puzzle) (goal : Edge → Bool) {x : Edge × List Edge}
    (rest : List (Edge × List Edge)) {V : List (Edge × Nat)} {succs : List Edge}
    (h : goal x.1 = false) (h2 : Vmem x.1 V = false)
    (h3 : successors p x.1 = Option.some succs) :
    bfsAux p goal (x :: rest) V
      = bfsAux p goal (rest ++ succs.map (fun s => (s, x.1 :: x.2)))
          ((x.1, x.2.length + 1) :: V) := by
  rw [bfsAux.eq_def]
  simp only [h, Bool.false_eq_true, if_false, h2, dite_false]
  split
  · rename_i hs
    exact absurd (hs.symm.trans h3) (by simp)
  · rename_i succs' hs
    have hx := hs.symm.trans h3
    simp only [Option.some.injEq] at hx
    subst hx
    rfl

/-! ### Specification-side predicates for the solver

A solution path is a list of search states; consecutive states must be
joined by a real edge of the graph whose color is allowed to follow the
color of the previous step. -/

/-- One legal transition of the search: the graph holds, at the node of
`a`, an outgoing edge equal to state `b` (an `Edge` doubles as the state
it leads to), and its color may follow the color `a` was reached with. -/
def Step (p : Puzzle) (a b : Edge) : Prop :=
  ∃ es, p.get a.node = Option.some es ∧ b ∈ es ∧ canFollow a.color b.color = true

/-- A path of the constrained search from `start`: it begins at the
synthetic state `(Color.none, start)` and each consecutive pair is a
legal transition. -/
def IsSearchPath (p : Puzzle) (start : String) (l : List Edge) : Prop :=
  l.head? = Option.some (Edge.mk Color.none start) ∧ l.Chain' (Step p)

/-- A solution path: a search path from `start` whose final state sits on
the node `endNode`. -/
def SolPath (p : Puzzle) (start endNode : String) (l : List Edge) : Prop :=
  IsSearchPath p start l ∧ ∃ s, l.getLast? = Option.some s ∧ s.node = endNode

/-- The node has an entry in the map. -/
def Puzzle.hasKey (p : Puzzle) (k : String) : Prop :=
  (p.get k).isSome

/-- Every edge destination of the map has an entry of its own: on such
puzzles the `unwrap()` of the successor closure can never panic. -/
def Puzzle.Closed (p : Puzzle) : Prop :=
  ∀ b ∈ p.nodes, ∀ e ∈ b.2, p.hasKey e.node

/-- A search path reaching a state accepted by the goal test. -/
def GoalPath (p : Puzzle) (goal : Edge → Bool) (start : String) (l : List Edge) : Prop :=
  IsSearchPath p start l ∧ ∃ s, l.getLast? = Option.some s ∧ goal s = true

/-- The path a queue entry stands for: the entry's state on top of the
reversed discovery list, put back in travel order. -/
def pathOf (x : Edge × List Edge) : List Edge :=
  (x.1 :: x.2).reverse

/-- The length of the path a queue entry stands for. -/
def entryLen (x : Edge × List Edge) : Nat :=
  x.2.length + 1

/-- Well-formedness of one queue entry, stated on the reversed list the
entry actually carries. -/
def QEntryOK (p : Puzzle) (start : String) (x : Edge × List Edge) : Prop :=
  (x.1 :: x.2).getLast? = Option.some (Edge.mk Color.none start)
    ∧ (x.1 :: x.2).Chain' (fun a b => Step p b a)

/-- A state is accounted for, with a length bound: either it was expanded
at that length or better, or it sits in the queue at that length or
better. -/
def Covered (Q : List (Edge × List Edge)) (V : List (Edge × Nat))
    (t : Edge) (bnd : Nat) : Prop :=
  (∃ v ∈ V, v.1 = t ∧ v.2 ≤ bnd) ∨ (∃ x ∈ Q, x.1 = t ∧ entryLen x ≤ bnd)

/-- The loop invariant of the search: queue entries are well formed,
queue lengths are sorted and spread by at most one, no expanded state
satisfies the goal, expanded lengths are below all queue lengths, every
legal successor of an expanded state is covered one step further, and the
start state is covered at length 1. -/
structure SearchInv (p : Puzzle) (goal : Edge → Bool) (start : String)
    (Q : List (Edge × List Edge)) (V : List (Edge × Nat)) : Prop where
  hq1 : ∀ x ∈ Q, QEntryOK p start x
  hq2 : Q.Pairwise (fun a b => entryLen a ≤ entryLen b)
  hq3 : ∀ x ∈ Q, ∀ y ∈ Q, entryLen x ≤ entryLen y + 1
  hv1 : ∀ v ∈ V, goal v.1 = false
  hv2 : ∀ v ∈ V, ∀ x ∈ Q, v.2 ≤ entryLen x
  hv3 : ∀ v ∈ V, ∀ t, Step p v.1 t → Covered Q V t (v.2 + 1)
  hv4 : Covered Q V (Edge.mk Color.none start) 1

theorem qEntryOK_iff {p : Puzzle} {start : String} {x : Edge × List Edge} :
    QEntryOK p start x ↔ IsSearchPath p start (pathOf x) := by
  unfold QEntryOK IsSearchPath pathOf
  rw [List.head?_reverse, List.chain'_reverse]
  rfl

theorem pathOf_length {x : Edge × List Edge} : (pathOf x).length = entryLen x := by
  simp [pathOf, entryLen]

theorem pathOf_getLast {x : Edge × List Edge} :
    (pathOf x).getLast? = Option.some x.1 := by
  unfold pathOf
  rw [List.getLast?_reverse]
  rfl

theorem qEntry_extend {p : Puzzle} {start : String} {x : Edge × List Edge} {t : Edge}
    (hx : QEntryOK p start x) (hstep : Step p x.1 t) :
    QEntryOK p start (t, x.1 :: x.2) := by
  obtain ⟨hlast, hchain⟩ := hx
  refine ⟨?_, ?_⟩
  · simpa using hlast
  · exact List.Chain'.cons hstep hchain

theorem mem_successors {p : Puzzle} {e : Edge} {l : List Edge}
    (h : successors p e = Option.some l) (t : Edge) : t ∈ l ↔ Step p e t := by
  unfold successors at h
  split at h
  · exact absurd h (by simp)
  · rename_i edges hg
    have hl := Option.some.inj h
    subst hl
    constructor
    · intro ht
      rw [List.mem_filterMap] at ht
      obtain ⟨ed, hed, hif⟩ := ht
      by_cases hc : canFollow e.color ed.color
      · rw [if_pos hc, Option.some.injEq] at hif
        have : t = ed := by rw [← hif]
        subst this
        exact ⟨edges, hg, hed, hc⟩
      · rw [if_neg hc] at hif
        exact absurd hif (by simp)
    · rintro ⟨es, hes, hmem, hcan⟩
      have hes2 : edges = es := by
        have := hg.symm.trans hes
        exact Option.some.inj this
      subst hes2
      rw [List.mem_filterMap]
      exact ⟨t, hmem, by rw [if_pos hcan]⟩

theorem qEntry_head_cases {p : Puzzle} {start : String} {x : Edge × List Edge}
    (hx : QEntryOK p start x) :
    x.1 = Edge.mk Color.none start ∨ x.1 ∈ statesOf p := by
  obtain ⟨hlast, hchain⟩ := hx
  rcases hx2 : x.2 with _ | ⟨y, ys⟩
  · left
    rw [hx2] at hlast
    simpa using hlast
  · right
    rw [hx2] at hchain
    have hstep : Step p y x.1 := (List.chain'_cons.mp hchain).1
    obtain ⟨es, hes, hmem, _⟩ := hstep
    obtain ⟨b, hb, hbv⟩ := assocLast_mem hes
    unfold statesOf
    rw [List.mem_flatMap]
    exact ⟨b, hb, hbv ▸ hmem⟩

theorem statesOf_hasKey {p : Puzzle} {t : Edge} (hc : p.Closed)
    (ht : t ∈ statesOf p) : p.hasKey t.node := by
  unfold statesOf at ht
  rw [List.mem_flatMap] at ht
  obtain ⟨b, hb, hmem⟩ := ht
  exact hc b hb t hmem

theorem successors_isSome {p : Puzzle} {e : Edge} (h : p.hasKey e.node) :
    ∃ l, successors p e = Option.some l := by
  unfold Puzzle.hasKey at h
  unfold successors
  rcases hg : p.get e.node with _ | es
  · rw [hg] at h
    exact absurd h (by simp)
  · exact ⟨_, rfl⟩

theorem vmem_exists {s : Edge} {V : List (Edge × Nat)} (h : Vmem s V = true) :
    ∃ v ∈ V, v.1 = s := by
  unfold Vmem at h
  rw [decide_eq_true_eq, List.mem_map] at h
  obtain ⟨v, hv, hs⟩ := h
  exact ⟨v, hv, hs⟩

theorem pairwise_entryLen_const {c : Nat} {l : List (Edge × List Edge)}
    (h : ∀ a ∈ l, entryLen a = c) :
    l.Pairwise (fun a b => entryLen a ≤ entryLen b) := by
  induction l with
  | nil => exact List.Pairwise.nil
  | cons a rest ih =>
    refine List.Pairwise.cons ?_ (ih ?_)
    · intro b hb
      rw [h a (List.mem_cons_self _ _), h b (List.mem_cons_of_mem _ hb)]
    · intro b hb
      exact h b (List.mem_cons_of_mem _ hb)

theorem isSearchPath_snoc {p : Puzzle} {start : String} {l : List Edge} {s : Edge} :
    IsSearchPath p start (l ++ [s])
      ↔ (l = [] ∧ s = Edge.mk Color.none start)
        ∨ (IsSearchPath p start l ∧ ∃ s', l.getLast? = Option.some s' ∧ Step p s' s) := by
  unfold IsSearchPath
  rcases l with _ | ⟨a, l'⟩
  · simp
  · rw [List.chain'_append]
    constructor
    · rintro ⟨hhead, hc1, hc2, hlink⟩
      refine Or.inr ⟨⟨by simpa using hhead, hc1⟩, ?_⟩
      have hne : a :: l' ≠ [] := by simp
      obtain ⟨s', hs'⟩ := Option.isSome_iff_exists.mp (by
        rw [List.getLast?_isSome]; exact hne)
      exact ⟨s', hs', hlink s' hs' s rfl⟩
    · rintro (⟨habs, _⟩ | ⟨⟨hhead, hc1⟩, s', hs', hstep⟩)
      · exact absurd habs (by simp)
      · refine ⟨by simpa using hhead, hc1, List.chain'_singleton s, ?_⟩
        intro x hx y hy
        have hx' : x = s' := by
          rw [hs'] at hx
          exact (Option.some.inj hx).symm
        have hy' : y = s := Option.some.inj hy.symm
        rw [hx', hy']
        exact hstep

theorem cover_all {p : Puzzle} {goal : Edge → Bool} {start : String}
    {Q : List (Edge × List Edge)} {V : List (Edge × Nat)}
    (inv : SearchInv p goal start Q V) :
    ∀ l, IsSearchPath p start l → ∀ s, l.getLast? = Option.some s →
      (∃ v ∈ V, v.1 = s ∧ v.2 ≤ l.length) ∨ (∃ x ∈ Q, entryLen x ≤ l.length) := by
  intro l
  induction l using List.reverseRecOn with
  | nil => intro h s hs; exact absurd hs (by simp)
  | append_singleton l a ih =>
    intro h s hs
    have hsa : s = a := by
      rw [List.getLast?_concat] at hs
      exact (Option.some.inj hs).symm
    subst hsa
    rw [isSearchPath_snoc] at h
    rcases h with ⟨hl, hstart⟩ | ⟨hpath, s', hs', hstep⟩
    · subst hl
      subst hstart
      rcases inv.hv4 with ⟨v, hv, hv1, hv2⟩ | ⟨x, hx, hx1, hx2⟩
      · exact Or.inl ⟨v, hv, hv1, by simpa using hv2⟩
      · exact Or.inr ⟨x, hx, by simpa using hx2⟩
    · rcases ih hpath s' hs' with ⟨v, hv, hv1, hv2⟩ | ⟨x, hx, hx2⟩
      · have hstep' : Step p v.1 s := hv1 ▸ hstep
        rcases inv.hv3 v hv s hstep' with ⟨v', hv', hv'1, hv'2⟩ | ⟨x, hx, hx1, hx2⟩
        · refine Or.inl ⟨v', hv', hv'1, ?_⟩
          have : (l ++ [s]).length = l.length + 1 := by simp
          omega
        · refine Or.inr ⟨x, hx, ?_⟩
          have : (l ++ [s]).length = l.length + 1 := by simp
          omega
      · refine Or.inr ⟨x, hx, ?_⟩
        have : (l ++ [s]).length = l.length + 1 := by simp
        omega

theorem inv_skip {p : Puzzle} {goal : Edge → Bool} {start : String}
    {x : Edge × List Edge} {T : List (Edge × List Edge)} {V : List (Edge × Nat)}
    (inv : SearchInv p goal start (x :: T) V) (hv : Vmem x.1 V = true) :
    SearchInv p goal start T V := by
  have hxQ : x ∈ x :: T := List.mem_cons_self _ _
  refine ⟨?_, ?_, ?_, inv.hv1, ?_, ?_, ?_⟩
  · intro y hy
    exact inv.hq1 y (List.mem_cons_of_mem _ hy)
  · exact inv.hq2.of_cons
  · intro a ha b hb
    exact inv.hq3 a (List.mem_cons_of_mem _ ha) b (List.mem_cons_of_mem _ hb)
  · intro v hvV y hy
    exact inv.hv2 v hvV y (List.mem_cons_of_mem _ hy)
  · intro v hvV t hstep
    rcases inv.hv3 v hvV t hstep with hcase | ⟨y, hy, hy1, hy2⟩
    · exact Or.inl hcase
    · rcases List.mem_cons.mp hy with rfl | hyT
      · obtain ⟨v', hv', hv'1⟩ := vmem_exists hv
        refine Or.inl ⟨v', hv', hv'1.trans hy1, ?_⟩
        exact (inv.hv2 v' hv' y hxQ).trans hy2
      · exact Or.inr ⟨y, hyT, hy1, hy2⟩
  · rcases inv.hv4 with hcase | ⟨y, hy, hy1, hy2⟩
    · exact Or.inl hcase
    · rcases List.mem_cons.mp hy with rfl | hyT
      · obtain ⟨v', hv', hv'1⟩ := vmem_exists hv
        refine Or.inl ⟨v', hv', hv'1.trans hy1, ?_⟩
        exact (inv.hv2 v' hv' y hxQ).trans hy2
      · exact Or.inr ⟨y, hyT, hy1, hy2⟩

theorem inv_expand {p : Puzzle} {goal : Edge → Bool} {start : String}
    {x : Edge × List Edge} {T : List (Edge × List Edge)} {V : List (Edge × Nat)}
    {succs : List Edge}
    (inv : SearchInv p goal start (x :: T) V) (hg : goal x.1 = false)
    (hs : successors p x.1 = Option.some succs) :
    SearchInv p goal start (T ++ succs.map (fun s => (s, x.1 :: x.2)))
      ((x.1, x.2.length + 1) :: V) := by
  have hxQ : x ∈ x :: T := List.mem_cons_self _ _
  have hheadmin : ∀ y ∈ T, entryLen x ≤ entryLen y := (List.pairwise_cons.mp inv.hq2).1
  have hnews : ∀ b ∈ succs.map (fun s => (s, x.1 :: x.2)), entryLen b = entryLen x + 1 := by
    intro b hb
    rw [List.mem_map] at hb
    obtain ⟨t, _, hbt⟩ := hb
    rw [← hbt]
    simp [entryLen]
  have hnews_step : ∀ b ∈ succs.map (fun s => (s, x.1 :: x.2)), Step p x.1 b.1 := by
    intro b hb
    rw [List.mem_map] at hb
    obtain ⟨t, ht, hbt⟩ := hb
    rw [← hbt]
    exact (mem_successors hs t).mp ht
  have hxlen : x.2.length + 1 = entryLen x := rfl
  refine ⟨?_, ?_, ?_, ?_, ?_, ?_, ?_⟩
  · intro y hy
    rcases List.mem_append.mp hy with hyT | hynew
    · exact inv.hq1 y (List.mem_cons_of_mem _ hyT)
    · rw [List.mem_map] at hynew
      obtain ⟨t, ht, hyt⟩ := hynew
      rw [← hyt]
      exact qEntry_extend (inv.hq1 x hxQ) ((mem_successors hs t).mp ht)
  · rw [List.pairwise_append]
    refine ⟨inv.hq2.of_cons, pairwise_entryLen_const hnews, ?_⟩
    intro a ha b hb
    have h1 : entryLen a ≤ entryLen x + 1 := inv.hq3 a (List.mem_cons_of_mem _ ha) x hxQ
    rw [hnews b hb]
    exact h1
  · intro a ha b hb
    rcases List.mem_append.mp ha with haT | hanew
    · rcases List.mem_append.mp hb with hbT | hbnew
      · exact inv.hq3 a (List.mem_cons_of_mem _ haT) b (List.mem_cons_of_mem _ hbT)
      · have : entryLen a ≤ entryLen x + 1 := inv.hq3 a (List.mem_cons_of_mem _ haT) x hxQ
        rw [hnews b hbnew]
        omega
    · rcases List.mem_append.mp hb with hbT | hbnew
      · have : entryLen x ≤ entryLen b := hheadmin b hbT
        rw [hnews a hanew]
        omega
      · rw [hnews a hanew, hnews b hbnew]
        omega
  · intro v hv
    rcases List.mem_cons.mp hv with rfl | hvV
    · exact hg
    · exact inv.hv1 v hvV
  · intro v hv y hy
    rcases List.mem_cons.mp hv with rfl | hvV
    · rcases List.mem_append.mp hy with hyT | hynew
      · rw [hxlen]
        exact hheadmin y hyT
      · rw [hnews y hynew, hxlen]
        omega
    · rcases List.mem_append.mp hy with hyT | hynew
      · exact inv.hv2 v hvV y (List.mem_cons_of_mem _ hyT)
      · have : v.2 ≤ entryLen x := inv.hv2 v hvV x hxQ
        rw [hnews y hynew]
        omega
  · intro v hv t hstep
    rcases List.mem_cons.mp hv with rfl | hvV
    · have ht : t ∈ succs := (mem_successors hs t).mpr hstep
      refine Or.inr ⟨(t, x.1 :: x.2), ?_, rfl, ?_⟩
      · exact List.mem_append_right _ (List.mem_map_of_mem _ ht)
      · simp [entryLen]
    · rcases inv.hv3 v hvV t hstep with ⟨v', hv', hv'1, hv'2⟩ | ⟨y, hy, hy1, hy2⟩
      · exact Or.inl ⟨v', List.mem_cons_of_mem _ hv', hv'1, hv'2⟩
      · rcases List.mem_cons.mp hy with rfl | hyT
        · refine Or.inl ⟨(y.1, y.2.length + 1), List.mem_cons_self _ _, hy1, ?_⟩
          exact hy2
        · exact Or.inr ⟨y, List.mem_append_left _ hyT, hy1, hy2⟩
  · rcases inv.hv4 with ⟨v', hv', hv'1, hv'2⟩ | ⟨y, hy, hy1, hy2⟩
    · exact Or.inl ⟨v', List.mem_cons_of_mem _ hv', hv'1, hv'2⟩
    · rcases List.mem_cons.mp hy with rfl | hyT
      · refine Or.inl ⟨(y.1, y.2.length + 1), List.mem_cons_self _ _, hy1, ?_⟩
        exact hy2
      · exact Or.inr ⟨y, List.mem_append_left _ hyT, hy1, hy2⟩


theorem bfs_main {p : Puzzle} {goal : Edge → Bool} {start : String} :
    ∀ (Q : List (Edge × List Edge)) (V : List (Edge × Nat)),
      SearchInv p goal start Q V →
      (∀ l, bfsAux p goal Q V = Except.ok (Option.some l) →
          GoalPath p goal start l ∧ ∀ l', GoalPath p goal start l' → l.length ≤ l'.length)
      ∧ (bfsAux p goal Q V = Except.ok Option.none → ∀ l', ¬ GoalPath p goal start l')
      ∧ (p.hasKey start → p.Closed → bfsAux p goal Q V ≠ Except.error ()) := by
  intro Q V
  induction Q, V using bfsAux.induct p goal with
  | case1 V =>
    intro inv
    refine ⟨?_, ?_, ?_⟩
    · intro l h
      rw [bfsAux_nil] at h
      exact absurd h (by simp)
    · intro h l' hgp
      obtain ⟨hpath, s, hlast, hgoal⟩ := hgp
      rcases cover_all inv l' hpath s hlast with ⟨v, hvV, hv1, _⟩ | ⟨y, hy, _⟩
      · have hf := inv.hv1 v hvV
        rw [hv1] at hf
        rw [hf] at hgoal
        exact absurd hgoal (by simp)
      · exact absurd hy (by simp)
    · intro _ _
      rw [bfsAux_nil]
      simp
  | case2 V x rest hg =>
    intro inv
    have hxQ : x ∈ x :: rest := List.mem_cons_self _ _
    refine ⟨?_, ?_, ?_⟩
    · intro l h
      rw [bfsAux_goal p goal rest V hg] at h
      simp only [Except.ok.injEq, Option.some.injEq] at h
      subst h
      have hpath : IsSearchPath p start (pathOf x) := qEntryOK_iff.mp (inv.hq1 x hxQ)
      refine ⟨⟨hpath, x.1, pathOf_getLast, hg⟩, ?_⟩
      intro l' hgp'
      obtain ⟨hpath', s', hlast', hgoal'⟩ := hgp'
      rcases cover_all inv l' hpath' s' hlast' with ⟨v, hvV, hv1, _⟩ | ⟨y, hy, hylen⟩
      · have hf := inv.hv1 v hvV
        rw [hv1] at hf
        rw [hf] at hgoal'
        exact absurd hgoal' (by simp)
      · have hxy : entryLen x ≤ entryLen y := by
          rcases List.mem_cons.mp hy with rfl | hyT
          · exact Nat.le_refl _
          · exact (List.pairwise_cons.mp inv.hq2).1 y hyT
        have hlen : (x.1 :: x.2).reverse.length = entryLen x := pathOf_length
        rw [hlen]
        omega
    · intro h
      rw [bfsAux_goal p goal rest V hg] at h
      exact absurd h (by simp)
    · intro _ _
      rw [bfsAux_goal p goal rest V hg]
      simp
  | case3 V x rest hg hv ih =>
    intro inv
    have hg' : goal x.1 = false := by
      revert hg; cases goal x.1 <;> simp
    have IH := ih (inv_skip inv hv)
    rw [bfsAux_skip p goal rest hg' hv]
    exact IH
  | case4 V x rest hg hv hs =>
    intro inv
    have hg' : goal x.1 = false := by
      revert hg; cases goal x.1 <;> simp
    have hv' : Vmem x.1 V = false := by
      revert hv; cases Vmem x.1 V <;> simp
    rw [bfsAux_panic p goal rest hg' hv' hs]
    refine ⟨?_, ?_, ?_⟩
    · intro l h
      exact absurd h (by simp)
    · intro h
      exact absurd h (by simp)
    · intro hkey hclosed _
      rcases qEntry_head_cases (inv.hq1 x (List.mem_cons_self _ _)) with hstart | hmem
      · have : p.hasKey x.1.node := by rw [hstart]; exact hkey
        obtain ⟨l, hl⟩ := successors_isSome this
        exact absurd (hl.symm.trans hs) (by simp)
      · obtain ⟨l, hl⟩ := successors_isSome (statesOf_hasKey hclosed hmem)
        exact absurd (hl.symm.trans hs) (by simp)
  | case5 V x rest hg hv succs hs ih =>
    intro inv
    have hg' : goal x.1 = false := by
      revert hg; cases goal x.1 <;> simp
    have hv' : Vmem x.1 V = false := by
      revert hv; cases Vmem x.1 V <;> simp
    have IH := ih (inv_expand inv hg' hs)
    rw [bfsAux_expand p goal rest hg' hv' hs]
    exact IH

theorem goalPath_iff_solPath {p : Puzzle} {start endNode : String} {l : List Edge} :
    GoalPath p (fun state => state.node == endNode) start l ↔ SolPath p start endNode l := by
  unfold GoalPath SolPath
  constructor
  · rintro ⟨h1, s, h2, h3⟩
    exact ⟨h1, s, h2, by simpa using h3⟩
  · rintro ⟨h1, s, h2, h3⟩
    exact ⟨h1, s, h2, by simpa using h3⟩

theorem searchInv_init (p : Puzzle) (goal : Edge → Bool) (start : String) :
    SearchInv p goal start [(Edge.mk Color.none start, [])] [] := by
  refine ⟨?_, ?_, ?_, ?_, ?_, ?_, ?_⟩
  · intro x hx
    rw [List.mem_singleton] at hx
    subst hx
    exact ⟨rfl, List.chain'_singleton _⟩
  · exact List.pairwise_singleton _ _
  · intro x hx y hy
    rw [List.mem_singleton] at hx hy
    subst hx; subst hy
    omega
  · intro v hv
    exact absurd hv (by simp)
  · intro v hv
    exact absurd hv (by simp)
  · intro v hv
    exact absurd hv (by simp)
  · exact Or.inr ⟨(Edge.mk Color.none start, []), List.mem_singleton.mpr rfl, rfl, Nat.le_refl _⟩

/-- Claim C1 (as amended): on every puzzle whose start node and edge
destinations all have an entry in the map (so the `unwrap()` of the
successor closure cannot panic), `solve` returns a solution path — it
begins at `(Color.none, start)`, every consecutive transition is a real
edge of the graph whose color may legally follow the previous one, it
ends on the end node — of minimal length among all such paths, and it
returns the "no path" signal exactly when no such path exists. -/
theorem solve_correct_of_closed (p : Puzzle) (start endNode : String)
    (hkey : p.hasKey start) (hclosed : p.Closed) :
    match p.solve start endNode with
    | Except.ok (Option.some l) =>
        SolPath p start endNode l ∧ ∀ l', SolPath p start endNode l' → l.length ≤ l'.length
    | Except.ok Option.none => ∀ l', ¬ SolPath p start endNode l'
    | Except.error _ => False := by
  obtain ⟨c1, c2, c3⟩ := bfs_main [(Edge.mk Color.none start, [])] []
    (searchInv_init p (fun state => state.node == endNode) start)
  split
  · rename_i l heq
    obtain ⟨hgp, hmin⟩ := c1 l heq
    refine ⟨goalPath_iff_solPath.mp hgp, ?_⟩
    intro l' hsp
    exact hmin l' (goalPath_iff_solPath.mpr hsp)
  · rename_i heq
    intro l' hsp
    exact c2 heq l' (goalPath_iff_solPath.mpr hsp)
  · rename_i e heq
    cases e
    exact c3 hkey hclosed heq

theorem parse_node_eq {input nm i1 m i2 : List Char} {e : Edge} {i3 : List Char}
    {es : List Edge} {rest : List Char}
    (h1 : alpha1 input = Option.some (nm, i1))
    (h2 : space1 i1 = Option.some (m, i2))
    (h3 : Puzzle.parse_edge i2 = Option.some (e, i3))
    (h4 : edgesRest i3 = Option.some (es, rest)) :
    Puzzle.parse_node input = Option.some ((String.mk nm, e :: es), rest) := by
  simp only [Puzzle.parse_node, h1, h2, h3, h4]

theorem parse_node_eq_none_space {input nm i1 : List Char}
    (h1 : alpha1 input = Option.some (nm, i1))
    (h2 : space1 i1 = Option.none) :
    Puzzle.parse_node input = Option.none := by
  simp only [Puzzle.parse_node, h1, h2]

theorem parse_node_eq_none_alpha {input : List Char}
    (h1 : alpha1 input = Option.none) :
    Puzzle.parse_node input = Option.none := by
  simp only [Puzzle.parse_node, h1]

theorem parse_puzzle_eq_nil {input : List Char}
    (h : Puzzle.parse_node input = Option.none) :
    Puzzle.parse_puzzle input = Option.some (Puzzle.mk [], input) := by
  simp only [Puzzle.parse_puzzle, h]

theorem parse_puzzle_eq_cons {input : List Char} {n : String × List Edge} {i1 : List Char}
    {ns : List (String × List Edge)} {rest : List Char}
    (h1 : Puzzle.parse_node input = Option.some (n, i1))
    (h2 : nodesRest i1 = Option.some (ns, rest)) :
    Puzzle.parse_puzzle input = Option.some (Puzzle.mk (n :: ns), rest) := by
  simp only [Puzzle.parse_puzzle, h1, h2]

theorem from_str_eq {s : String} {puz : Puzzle} {rest : List Char}
    (h : Puzzle.parse_puzzle s.data = Option.some (puz, rest)) :
    Puzzle.from_str s = Except.ok puz := by
  simp only [Puzzle.from_str, h]

theorem parse_puzzle_total (input : List Char) :
    ∃ puz rest, Puzzle.parse_puzzle input = Option.some (puz, rest) := by
  rcases hn : Puzzle.parse_node input with _ | ⟨n, i1⟩
  · exact ⟨Puzzle.mk [], input, parse_puzzle_eq_nil hn⟩
  · rcases hr : nodesRest i1 with _ | ⟨ns, rest⟩
    · exact absurd hr (nodesRest_total i1)
    · exact ⟨Puzzle.mk (n :: ns), rest, parse_puzzle_eq_cons hn hr⟩

theorem from_str_ok (s : String) : ∃ puz, Puzzle.from_str s = Except.ok puz := by
  obtain ⟨puz, rest, h⟩ := parse_puzzle_total s.data
  exact ⟨puz, from_str_eq h⟩

theorem from_str_example1 :
    Puzzle.from_str "a red:b \nb blue:a"
      = Except.ok (Puzzle.mk [("a", [Edge.mk Color.red "b"])]) := by
  have hs2 : space1 (" \nb blue:a".data) = Option.some ([' '], "\nb blue:a".data) := by
    decide
  have hp2 : Puzzle.parse_edge ("\nb blue:a".data) = Option.none := by decide
  have he : edgesRest (" \nb blue:a".data) = Option.some ([], " \nb blue:a".data) :=
    edgesRest_eq_noedge hs2 hp2
  have ha1 : alpha1 ("a red:b \nb blue:a".data)
      = Option.some (['a'], " red:b \nb blue:a".data) := by decide
  have hs1 : space1 (" red:b \nb blue:a".data)
      = Option.some ([' '], "red:b \nb blue:a".data) := by decide
  have hp1 : Puzzle.parse_edge ("red:b \nb blue:a".data)
      = Option.some (Edge.mk Color.red "b", " \nb blue:a".data) := by decide
  have hnode := parse_node_eq ha1 hs1 hp1 he
  have hnr : nodesRest (" \nb blue:a".data) = Option.some ([], " \nb blue:a".data) :=
    nodesRest_eq_nosep (by decide)
  exact from_str_eq (parse_puzzle_eq_cons hnode hnr)

theorem print_solution_go_zip (prev : Edge) (l : List Edge) :
    print_solution_go (Option.some prev) l
      = ((prev :: l).zip l).map
          (fun pc => pc.1.node ++ " ==(" ++ Color.display pc.2.color ++ ")=> " ++ pc.2.node) := by
  induction l generalizing prev with
  | nil => rfl
  | cons s rest ih =>
    simp only [print_solution_go, List.zip_cons_cons, List.map_cons, List.singleton_append]
    rw [ih s]

theorem from_str_example3 :
    Puzzle.from_str "a red:b blue:a\nc red:a blue:b"
      = Except.ok (Puzzle.mk
          [("a", [Edge.mk Color.red "b", Edge.mk Color.blue "a"]),
           ("c", [Edge.mk Color.red "a", Edge.mk Color.blue "b"])]) := by
  have he0 : edgesRest ("\nc red:a blue:b".data)
      = Option.some ([], "\nc red:a blue:b".data) :=
    edgesRest_eq_nospace (by decide)
  have hsp1 : space1 (" blue:a\nc red:a blue:b".data)
      = Option.some ([' '], "blue:a\nc red:a blue:b".data) := by decide
  have hpe1 : Puzzle.parse_edge ("blue:a\nc red:a blue:b".data)
      = Option.some (Edge.mk Color.blue "a", "\nc red:a blue:b".data) := by decide
  have he1 : edgesRest (" blue:a\nc red:a blue:b".data)
      = Option.some ([Edge.mk Color.blue "a"], "\nc red:a blue:b".data) :=
    edgesRest_eq_cons_some hsp1 hpe1 he0
  have ha1 : alpha1 ("a red:b blue:a\nc red:a blue:b".data)
      = Option.some (['a'], " red:b blue:a\nc red:a blue:b".data) := by decide
  have hsp2 : space1 (" red:b blue:a\nc red:a blue:b".data)
      = Option.some ([' '], "red:b blue:a\nc red:a blue:b".data) := by decide
  have hpe2 : Puzzle.parse_edge ("red:b blue:a\nc red:a blue:b".data)
      = Option.some (Edge.mk Color.red "b", " blue:a\nc red:a blue:b".data) := by decide
  have hnode1 := parse_node_eq ha1 hsp2 hpe2 he1
  have he2 : edgesRest (([] : List Char)) = Option.some ([], []) :=
    edgesRest_eq_nospace (by decide)
  have hsp3 : space1 (" blue:b".data) = Option.some ([' '], "blue:b".data) := by decide
  have hpe3 : Puzzle.parse_edge ("blue:b".data)
      = Option.some (Edge.mk Color.blue "b", []) := by decide
  have he3 : edgesRest (" blue:b".data) = Option.some ([Edge.mk Color.blue "b"], []) :=
    edgesRest_eq_cons_some hsp3 hpe3 he2
  have ha2 : alpha1 ("c red:a blue:b".data)
      = Option.some (['c'], " red:a blue:b".data) := by decide
  have hsp4 : space1 (" red:a blue:b".data)
      = Option.some ([' '], "red:a blue:b".data) := by decide
  have hpe4 : Puzzle.parse_edge ("red:a blue:b".data)
      = Option.some (Edge.mk Color.red "a", " blue:b".data) := by decide
  have hnode2 := parse_node_eq ha2 hsp4 hpe4 he3
  have hnr0 : nodesRest ([] : List Char) = Option.some ([], []) :=
    nodesRest_eq_nosep (by decide)
  have htag : tagChar (Char.ofNat 10) ("\nc red:a blue:b".data)
      = Option.some ("c red:a blue:b".data) := by decide
  have hnr1 : nodesRest ("\nc red:a blue:b".data)
      = Option.some ([(String.mk ['c'],
          Edge.mk Color.red "a" :: [Edge.mk Color.blue "b"])], []) :=
    nodesRest_eq_cons_some htag hnode2 hnr0
  exact from_str_eq (parse_puzzle_eq_cons hnode1 hnr1)

/-! ### The claims -/

/-- Claim C1, counterexample to the claim as stated: on the parsed-style
graph with the single binding `x -> [red:y]`, `solve("x","z")` neither
returns a path nor the "no path" signal — it panics (the `unwrap()` of
the successor closure) when the search expands the state at node `y`,
which has no entry in the map. -/
theorem solve_not_total_counterexample :
    (Puzzle.mk [("x", [Edge.mk Color.red "y"])]).solve "x" "z" = Except.error () := by
  unfold Puzzle.solve
  have hsucc : successors (Puzzle.mk [("x", [Edge.mk Color.red "y"])])
      (Edge.mk Color.none "x") = Option.some [Edge.mk Color.red "y"] := by decide
  rw [bfsAux_expand _ _ [] (by decide) (by decide) hsucc]
  simp only [List.map_cons, List.map_nil, List.nil_append]
  have hsucc2 : successors (Puzzle.mk [("x", [Edge.mk Color.red "y"])])
      ((Edge.mk Color.red "y", [(Edge.mk Color.none "x", ([] : List Edge)).1]).1)
      = Option.none := by decide
  rw [bfsAux_panic _ _ _ (by decide) (by decide) hsucc2]

/-- Claim C2 (code bug): the claim says a state whose node is absent from
the map has zero successors and the search never panics; but the successor
closure calls `HashMap::get(..).unwrap()`, so on the graph `a -> [red:b]`
the call `solve("a","c")` expands the reached state `(red, b)`, finds no
entry for `b`, and panics instead of reporting "no path". -/
theorem solve_missing_node_panics :
    (Puzzle.mk [("a", [Edge.mk Color.red "b"])]).solve "a" "c" = Except.error () := by
  unfold Puzzle.solve
  have hsucc : successors (Puzzle.mk [("a", [Edge.mk Color.red "b"])])
      (Edge.mk Color.none "a") = Option.some [Edge.mk Color.red "b"] := by decide
  rw [bfsAux_expand _ _ [] (by decide) (by decide) hsucc]
  simp only [List.map_cons, List.map_nil, List.nil_append]
  have hsucc2 : successors (Puzzle.mk [("a", [Edge.mk Color.red "b"])])
      ((Edge.mk Color.red "b", [(Edge.mk Color.none "a", ([] : List Edge)).1]).1)
      = Option.none := by decide
  rw [bfsAux_panic _ _ _ (by decide) (by decide) hsucc2]

/-- Claim C3, counterexample to the claim as stated: the input `"a"` has a
node name with a missing edge list — by the claim an error condition — yet
parsing does not fail: it returns `Ok` with the empty graph (the maximal
well-formed prefix of the input is empty). -/
theorem parse_malformed_returns_ok :
    Puzzle.from_str "a" = Except.ok (Puzzle.mk []) := by
  have ha : alpha1 ("a".data) = Option.some (['a'], []) := by decide
  have hsp : space1 ([] : List Char) = Option.none := by decide
  exact from_str_eq (parse_puzzle_eq_nil (parse_node_eq_none_space ha hsp))

/-- Claim C3 as amended: parsing never fails.  For every input string
`from_str` returns `Ok` — malformed node names, missing edge lists and
malformed edges only stop the parse, whose already-parsed prefix becomes
the resulting graph, and no parse error is ever returned. -/
theorem from_str_never_fails (s : String) (e : Unit) :
    Puzzle.from_str s ≠ Except.error e := by
  obtain ⟨puz, h⟩ := from_str_ok s
  rw [h]
  simp

/-- Claim C4: for any graph, when the start node equals the end node,
`solve` returns the one-state path `[(Color.none, start)]` (cost 0, a
normal success distinct from "no path"), even when the start node has no
entry in the map: the goal test runs on the popped start state before its
successors are ever asked for. -/
theorem solve_start_eq_end (p : Puzzle) (s : String) :
    p.solve s s = Except.ok (Option.some [Edge.mk Color.none s]) := by
  unfold Puzzle.solve
  rw [bfsAux_goal p _ [] [] (by simp)]
  rfl

/-- Claim C5: the edge-legality predicate of the solver: a repeated
non-`none` color is illegal, `Color.none` conflicts with nothing on either
side, different colors are always legal — an edge is refused exactly when
its color equals the previous edge's color and that color is not
`Color.none`. -/
theorem canFollow_spec :
    (∀ c : Color, c ≠ Color.none → canFollow c c = false)
    ∧ (∀ x : Color, canFollow Color.none x = true)
    ∧ (∀ x : Color, canFollow x Color.none = true)
    ∧ (∀ a b : Color, a ≠ b → canFollow a b = true)
    ∧ (∀ a b : Color, canFollow a b = false ↔ a = b ∧ b ≠ Color.none) := by
  decide

/-- Claim C5, witness: the predicate evaluated at concrete colors. -/
theorem canFollow_spec_witness :
    canFollow Color.red Color.red = false ∧ canFollow Color.none Color.red = true
    ∧ canFollow Color.blue Color.none = true ∧ canFollow Color.red Color.blue = true :=
  ⟨canFollow_spec.1 Color.red (by decide), canFollow_spec.2.1 Color.red,
    canFollow_spec.2.2.1 Color.blue, canFollow_spec.2.2.2.1 Color.red Color.blue (by decide)⟩

/-- Claim C6 (code bug): on the parsed input
`"a red:b blue:a\\nc red:a blue:b"`, `solve("a","c")` should report the
normal "no path" outcome; instead the search expands the reachable state
`(red, b)`, node `b` has no entry in the map, and the `unwrap()` panics. -/
theorem example3_no_path_panics :
    Puzzle.from_str "a red:b blue:a\nc red:a blue:b"
      = Except.ok (Puzzle.mk
          [("a", [Edge.mk Color.red "b", Edge.mk Color.blue "a"]),
           ("c", [Edge.mk Color.red "a", Edge.mk Color.blue "b"])])
    ∧ (Puzzle.mk
          [("a", [Edge.mk Color.red "b", Edge.mk Color.blue "a"]),
           ("c", [Edge.mk Color.red "a", Edge.mk Color.blue "b"])]).solve "a" "c"
        = Except.error () := by
  refine ⟨from_str_example3, ?_⟩
  unfold Puzzle.solve
  have hsucc : successors (Puzzle.mk
      [("a", [Edge.mk Color.red "b", Edge.mk Color.blue "a"]),
       ("c", [Edge.mk Color.red "a", Edge.mk Color.blue "b"])])
      (Edge.mk Color.none "a")
      = Option.some [Edge.mk Color.red "b", Edge.mk Color.blue "a"] := by decide
  rw [bfsAux_expand _ _ [] (by decide) (by decide) hsucc]
  simp only [List.map_cons, List.map_nil, List.nil_append]
  have hsucc2 : successors (Puzzle.mk
      [("a", [Edge.mk Color.red "b", Edge.mk Color.blue "a"]),
       ("c", [Edge.mk Color.red "a", Edge.mk Color.blue "b"])])
      ((Edge.mk Color.red "b", [(Edge.mk Color.none "a", ([] : List Edge)).1]).1)
      = Option.none := by decide
  rw [bfsAux_panic _ _ _ (by decide) (by decide) hsucc2]

/-- Claim C7: the mapping from color names to colors is total: "red" and
"blue" map to their colors and every other string maps to `Color.none`;
no color name can make parsing fail. -/
theorem color_fromStr_total :
    Color.fromStr "red" = Color.red ∧ Color.fromStr "blue" = Color.blue
    ∧ ∀ s : String, s ≠ "red" → s ≠ "blue" → Color.fromStr s = Color.none := by
  refine ⟨rfl, rfl, ?_⟩
  intro s h1 h2
  unfold Color.fromStr
  rw [if_neg h1, if_neg h2]

/-- Claim C7, witness: a recognized and an unrecognized color name. -/
theorem color_fromStr_total_witness :
    Color.fromStr "red" = Color.red ∧ Color.fromStr "green" = Color.none :=
  ⟨color_fromStr_total.1, color_fromStr_total.2.2 "green" (by decide) (by decide)⟩

/-- Claim C8: end-to-end example 1: parsing `"a red:b \\nb blue:a"` and
solving from "a" to "b" returns the path `[(none, a), (red, b)]`. -/
theorem end_to_end_example1 :
    Puzzle.from_str "a red:b \nb blue:a"
      = Except.ok (Puzzle.mk [("a", [Edge.mk Color.red "b"])])
    ∧ (Puzzle.mk [("a", [Edge.mk Color.red "b"])]).solve "a" "b"
        = Except.ok (Option.some [Edge.mk Color.none "a", Edge.mk Color.red "b"]) := by
  refine ⟨from_str_example1, ?_⟩
  unfold Puzzle.solve
  have hsucc : successors (Puzzle.mk [("a", [Edge.mk Color.red "b"])])
      (Edge.mk Color.none "a") = Option.some [Edge.mk Color.red "b"] := by decide
  rw [bfsAux_expand _ _ [] (by decide) (by decide) hsucc]
  simp only [List.map_cons, List.map_nil, List.nil_append]
  rw [bfsAux_goal _ _ _ _ (by decide)]
  rfl

/-- Claim C9: the reporter emits exactly one line per consecutive pair of
states of a solution path, in the format
`"<prev.node> ==(<color-of-this-state>)=> <this.node>"`, skipping the
synthetic initial state's own color; `Color.display` renders the color
names in lowercase; and the "no path" result produces the single
"No solution found" message. -/
theorem print_solution_spec :
    (∀ solution : List Edge,
        print_solution solution
          = (solution.zip solution.tail).map
              (fun pc => pc.1.node ++ " ==(" ++ Color.display pc.2.color ++ ")=> " ++ pc.2.node))
    ∧ report Option.none = ["No solution found"]
    ∧ (∀ solution, report (Option.some solution) = print_solution solution)
    ∧ Color.display Color.red = "red" ∧ Color.display Color.blue = "blue"
    ∧ Color.display Color.none = "none" := by
  refine ⟨?_, rfl, fun _ => rfl, rfl, rfl, rfl⟩
  intro solution
  rcases solution with _ | ⟨s, rest⟩
  · rfl
  · show print_solution_go (Option.some s) rest = _
    rw [print_solution_go_zip s rest]
    rfl

/-- Claim C10: parsing is total and keeps the maximal well-formed prefix:
`from_str` returns `Ok` on every input string, and on
`"a red:b \\nb blue:a"` — where the trailing space after `red:b` stops the
node line and the leftover `" \\nb blue:a"` is not a newline-separated
continuation — the resulting graph holds only the binding
`a -> [red:b]`, the rest of the text being silently discarded. -/
theorem from_str_total_prefix :
    (∀ s : String, ∃ puz, Puzzle.from_str s = Except.ok puz)
    ∧ Puzzle.from_str "a red:b \nb blue:a"
        = Except.ok (Puzzle.mk [("a", [Edge.mk Color.red "b"])]) :=
  ⟨from_str_ok, from_str_example1⟩

/-- Claim C1, witness: the amended correctness theorem applied to a
concrete closed puzzle. -/
theorem solve_correct_of_closed_witness :
    Puzzle.hasKey (Puzzle.mk [("a", [Edge.mk Color.red "b", Edge.mk Color.blue "a"]),
        ("b", [Edge.mk Color.blue "a"])]) "a"
    ∧ Puzzle.Closed (Puzzle.mk [("a", [Edge.mk Color.red "b", Edge.mk Color.blue "a"]),
        ("b", [Edge.mk Color.blue "a"])])
    ∧ (match (Puzzle.mk [("a", [Edge.mk Color.red "b", Edge.mk Color.blue "a"]),
          ("b", [Edge.mk Color.blue "a"])]).solve "a" "b" with
       | Except.ok (Option.some l) =>
           SolPath (Puzzle.mk [("a", [Edge.mk Color.red "b", Edge.mk Color.blue "a"]),
             ("b", [Edge.mk Color.blue "a"])]) "a" "b" l
           ∧ ∀ l', SolPath (Puzzle.mk [("a", [Edge.mk Color.red "b", Edge.mk Color.blue "a"]),
               ("b", [Edge.mk Color.blue "a"])]) "a" "b" l' → l.length ≤ l'.length
       | Except.ok Option.none =>
           ∀ l', ¬ SolPath (Puzzle.mk [("a", [Edge.mk Color.red "b", Edge.mk Color.blue "a"]),
             ("b", [Edge.mk Color.blue "a"])]) "a" "b" l'
       | Except.error _ => False) :=
  ⟨by unfold Puzzle.hasKey; decide,
   by unfold Puzzle.Closed Puzzle.hasKey; decide,
   solve_correct_of_closed _ "a" "b" (by unfold Puzzle.hasKey; decide)
     (by unfold Puzzle.Closed Puzzle.hasKey; decide)⟩
